import Mathlib

set_option maxRecDepth 8000

namespace CodingAgent

/-- A code chunk dictionary as produced by the preprocessor and consumed by the
embedding manager: keys path, name, start_line, end_line, code
(src/app/preprocessor.py, CodeChunk.to_dict). Line numbers are modelled as Nat. -/
structure Chunk where
  path : String
  name : String
  start_line : Nat
  end_line : Nat
  code : String
deriving DecidableEq

/-- Embedding vectors (float32 arrays in the source) are modelled as lists of rationals. -/
abbrev Vec := List ℚ

/-- A Python dict modelled as an insertion-ordered association list.
Assignment d[k] = v replaces the value of an existing key in place,
otherwise appends the new pair at the end, matching dict semantics. -/
def dictSet {α : Type} (d : List (String × α)) (k : String) (v : α) : List (String × α) :=
  match d with
  | [] => [(k, v)]
  | (k', v') :: rest => if k' = k then (k, v) :: rest else (k', v') :: dictSet rest k v

/-- Dict lookup d.get(k): the value of the first pair whose key is k. -/
def dictGet {α : Type} (d : List (String × α)) (k : String) : Option α :=
  match d with
  | [] => none
  | (k', v) :: rest => if k' = k then some v else dictGet rest k

/-- Dict deletion del d[k]: removes the pairs whose key is k. -/
def dictDel {α : Type} (d : List (String × α)) (k : String) : List (String × α) :=
  d.filter (fun e => !(e.1 = k : Bool))

/-- Key of a chunk, f-string path::name (embedding_manager.py, _get_chunk_key). -/
def chunkKey (c : Chunk) : String := c.path ++ "::" ++ c.name

/-- Content hash of a chunk (embedding_manager.py, _compute_hash). The source
takes sha256 of the string path::name::code; sha256 is modelled by its input
string, which preserves the equality comparisons the code performs
(sha256 is treated as collision free). -/
def computeHash (c : Chunk) : String := c.path ++ "::" ++ c.name ++ "::" ++ c.code

/-- In-memory state of the EmbeddingManager: the FAISS index contents
(vectors, so index.ntotal is vectors.length), the metadata list and the
chunk_hashes dict (embedding_manager.py, fields of EmbeddingManager). -/
structure EMState where
  vectors : List Vec
  metadata : List Chunk
  chunk_hashes : List (String × String)
deriving DecidableEq

/-- Result of the chunk-analysis loop of upsert_chunks (embedding_manager.py
lines 166-202): chunks_to_process, chunk_indexes_to_update, the updated
chunk_hashes dict and the unchanged counter. -/
structure UpsertPlan where
  to_process : List Chunk
  to_update : List Nat
  hashes : List (String × String)
  unchanged : Nat
deriving DecidableEq

/-- The chunk-analysis loop of upsert_chunks (embedding_manager.py lines 170-202).
For each input chunk: if its key is in chunk_hashes and a metadata entry with the
same key exists, it is scheduled for update when the stored hash differs
(appending the found metadata index to to_update), else counted unchanged;
if the key is hashed but absent from metadata, or the key is new, the chunk is
scheduled for processing with no update index. metadata is the list as it was
at call entry (phase two has not run yet). -/
def classifyChunks (metadata : List Chunk) : List Chunk → UpsertPlan → UpsertPlan
  | [], plan => plan
  | c :: rest, plan =>
    let key := chunkKey c
    let h := computeHash c
    let plan' :=
      match dictGet plan.hashes key with
      | some stored =>
        match metadata.findIdx? (fun m => chunkKey m == key) with
        | some idx =>
          if stored ≠ h then
            { to_process := plan.to_process ++ [c], to_update := plan.to_update ++ [idx],
              hashes := dictSet plan.hashes key h, unchanged := plan.unchanged }
          else
            { to_process := plan.to_process, to_update := plan.to_update,
              hashes := plan.hashes, unchanged := plan.unchanged + 1 }
        | none =>
          { to_process := plan.to_process ++ [c], to_update := plan.to_update,
            hashes := dictSet plan.hashes key h, unchanged := plan.unchanged }
      | none =>
        { to_process := plan.to_process ++ [c], to_update := plan.to_update,
          hashes := dictSet plan.hashes key h, unchanged := plan.unchanged }
    classifyChunks metadata rest plan'

/-- The embedding/update loop of upsert_chunks (embedding_manager.py lines 216-262),
flattened over batches (batching only groups the same iteration; chunk_idx is the
global position start_idx + i in chunks_to_process). When chunk_idx is below the
length of chunk_indexes_to_update, the metadata entry at that stored index is
replaced in place and no vector is added; otherwise the embedded vector is
appended to the index and the chunk appended to metadata. -/
def applyChunks (embed : String → Vec) (to_update : List Nat) :
    Nat → List Chunk → List Vec → List Chunk → List Vec × List Chunk
  | _, [], v, m => (v, m)
  | i, c :: rest, v, m =>
    if i < to_update.length then
      applyChunks embed to_update (i + 1) rest v (m.set (to_update.getD i 0) c)
    else
      applyChunks embed to_update (i + 1) rest (v ++ [embed c.code]) (m ++ [c])

/-- upsert_chunks (embedding_manager.py lines 145-296): analyse the chunks,
then run the update loop; returns the updated in-memory state (persistence
writes the same state to disk). Empty input and all-unchanged input leave the
index and metadata untouched. embed models model.encode on a single text. -/
def upsertChunks (embed : String → Vec) (st : EMState) (chunks : List Chunk) : EMState :=
  if chunks = [] then st
  else
    let plan := classifyChunks st.metadata chunks ⟨[], [], st.chunk_hashes, 0⟩
    if plan.to_process = [] then
      { vectors := st.vectors, metadata := st.metadata, chunk_hashes := plan.hashes }
    else
      let vm := applyChunks embed plan.to_update 0 plan.to_process st.vectors st.metadata
      { vectors := vm.1, metadata := vm.2, chunk_hashes := plan.hashes }

/-- remove_chunks (embedding_manager.py lines 400-512): keep every metadata
entry whose path is not in the given list, delete the hash entries of removed
chunks, and rebuild the index from the vectors reconstructed at the kept
positions. When nothing matches the state is returned unchanged. Reconstruction
of position i is modelled by vectors.getD i []. -/
def removeChunks (st : EMState) (paths : List String) : EMState :=
  if paths = [] then st
  else
    let keep := st.metadata.enum.filter (fun p => !(paths.contains p.2.path))
    let removedKeys := (st.metadata.filter (fun m => paths.contains m.path)).map chunkKey
    let hashes' := removedKeys.foldl (fun d k => dictDel d k) st.chunk_hashes
    if st.metadata.length = keep.length then st
    else
      { vectors := keep.map (fun p => st.vectors.getD p.1 []),
        metadata := keep.map Prod.snd,
        chunk_hashes := hashes' }

lemma applyChunks_length (embed : String → Vec) (tu : List Nat) :
    ∀ (rest : List Chunk) (i : Nat) (v : List Vec) (m : List Chunk),
      (applyChunks embed tu i rest v m).1.length + m.length
        = (applyChunks embed tu i rest v m).2.length + v.length := by
  intro rest
  induction rest with
  | nil => intro i v m; simp only [applyChunks]; omega
  | cons c cs ih =>
    intro i v m
    simp only [applyChunks]
    by_cases h : i < tu.length
    · simp only [if_pos h]
      have := ih (i + 1) v (m.set (tu.getD i 0) c)
      simpa [List.length_set] using this
    · simp only [if_neg h]
      have := ih (i + 1) (v ++ [embed c.code]) (m ++ [c])
      simp only [List.length_append, List.length_cons, List.length_nil] at this
      omega

/-- C1: for every successful mutating call on the embedding manager
(upsert_chunks with any chunk list, remove_chunks with any path list), the
metadata length equals the number of vectors in the index afterwards, provided
the equality held before the call. -/
theorem upsert_remove_preserve_alignment (embed : String → Vec) (st : EMState)
    (h : st.metadata.length = st.vectors.length) :
    (∀ chunks : List Chunk,
        (upsertChunks embed st chunks).metadata.length
          = (upsertChunks embed st chunks).vectors.length)
      ∧ (∀ paths : List String,
        (removeChunks st paths).metadata.length
          = (removeChunks st paths).vectors.length) := by
  constructor
  · intro chunks
    unfold upsertChunks
    by_cases hc : chunks = []
    · simp [hc, h]
    · simp only [if_neg hc]
      set plan := classifyChunks st.metadata chunks ⟨[], [], st.chunk_hashes, 0⟩ with hplan
      by_cases hp : plan.to_process = []
      · simp [hp, h]
      · simp only [if_neg hp]
        have := applyChunks_length embed plan.to_update plan.to_process 0 st.vectors st.metadata
        omega
  · intro paths
    unfold removeChunks
    by_cases hp : paths = []
    · simp [hp, h]
    · simp only [if_neg hp]
      split
      · exact h
      · simp [List.length_map]

/-- Witness for C1: the invariant holds at a concrete one-chunk state and is
preserved by a concrete upsert call and a concrete remove call. -/
theorem upsert_remove_preserve_alignment_witness :
    (EMState.mk [[0]] [⟨"a.py", "f", 1, 2, "x"⟩] []).metadata.length
        = (EMState.mk [[0]] [⟨"a.py", "f", 1, 2, "x"⟩] []).vectors.length
      ∧ (upsertChunks (fun _ => [1]) (EMState.mk [[0]] [⟨"a.py", "f", 1, 2, "x"⟩] [])
            [⟨"b.py", "g", 1, 2, "y"⟩]).metadata.length
        = (upsertChunks (fun _ => [1]) (EMState.mk [[0]] [⟨"a.py", "f", 1, 2, "x"⟩] [])
            [⟨"b.py", "g", 1, 2, "y"⟩]).vectors.length
      ∧ (removeChunks (EMState.mk [[0]] [⟨"a.py", "f", 1, 2, "x"⟩] [])
            ["a.py"]).metadata.length
        = (removeChunks (EMState.mk [[0]] [⟨"a.py", "f", 1, 2, "x"⟩] [])
            ["a.py"]).vectors.length :=
  ⟨by decide,
   (upsert_remove_preserve_alignment (fun _ => [1])
      (EMState.mk [[0]] [⟨"a.py", "f", 1, 2, "x"⟩] []) (by decide)).1
      [⟨"b.py", "g", 1, 2, "y"⟩],
   (upsert_remove_preserve_alignment (fun _ => [1])
      (EMState.mk [[0]] [⟨"a.py", "f", 1, 2, "x"⟩] []) (by decide)).2
      ["a.py"]⟩

/-- Stored chunk of the C2 scenario. -/
def c2Old : Chunk := ⟨"a.py", "f", 1, 2, "old"⟩

/-- Changed version of the stored chunk (same key, different code). -/
def c2Changed : Chunk := ⟨"a.py", "f", 1, 2, "newcode"⟩

/-- A brand new chunk placed before the changed one in the input list. -/
def c2New : Chunk := ⟨"b.py", "g", 1, 2, "g"⟩

/-- Starting state of the C2 scenario: one stored vector, one metadata entry,
its hash recorded. -/
def c2State : EMState := ⟨[[0]], [c2Old], [(chunkKey c2Old, computeHash c2Old)]⟩

/-- C2: upserting a new chunk followed by a changed chunk misaligns
chunks_to_process with chunk_indexes_to_update: the new chunk overwrites the
changed chunk's metadata slot 0 in place (its vector never enters the index),
while the changed chunk is appended together with a fresh vector. The claim
(and the comments and the dead is-not-None placeholder check in the source)
require the changed chunk to replace only its own metadata entry in place with
no vector added for it. -/
theorem upsert_misaligns_new_before_changed :
    (upsertChunks (fun _ => [1]) c2State [c2New, c2Changed]).metadata
        = [c2New, c2Changed]
      ∧ (upsertChunks (fun _ => [1]) c2State [c2New, c2Changed]).vectors
        = [[0], [1]] := by
  constructor <;> decide

/-- Squared L2 distance between two vectors, as computed by the flat FAISS
index (IndexFlatL2 returns squared Euclidean distances). -/
def sqDist (a b : Vec) : ℚ := ((a.zip b).map (fun p => (p.1 - p.2) * (p.1 - p.2))).sum

/-- Ordering of (distance, index) pairs used to model the ascending-distance
ranking of index.search; ties are broken by the smaller vector index. -/
def distLe (p q : ℚ × ℤ) : Prop := p.1 < q.1 ∨ (p.1 = q.1 ∧ p.2 ≤ q.2)

instance : DecidableRel distLe := fun p q =>
  inferInstanceAs (Decidable (p.1 < q.1 ∨ (p.1 = q.1 ∧ p.2 ≤ q.2)))

instance : IsTotal (ℚ × ℤ) distLe := by
  constructor
  intro a b
  rcases lt_trichotomy a.1 b.1 with h | h | h
  · exact Or.inl (Or.inl h)
  · rcases le_total a.2 b.2 with h2 | h2
    · exact Or.inl (Or.inr ⟨h, h2⟩)
    · exact Or.inr (Or.inr ⟨h.symm, h2⟩)
  · exact Or.inr (Or.inl h)

instance : IsTrans (ℚ × ℤ) distLe := by
  constructor
  intro a b c hab hbc
  rcases hab with h | ⟨he, h2⟩
  · rcases hbc with h' | ⟨he', _⟩
    · exact Or.inl (h.trans h')
    · exact Or.inl (he' ▸ h)
  · rcases hbc with h' | ⟨he', h2'⟩
    · exact Or.inl (he ▸ h')
    · exact Or.inr ⟨he.trans he', h2.trans h2'⟩

/-- Search of the flat index (index.search in query, embedding_manager.py
line 328): score every stored vector by squared L2 distance to the query
vector, rank ascending by distance (ties by position), and return the first k
(distance, index) pairs. Indices are integers because FAISS can in general
emit -1 placeholders. -/
def searchFlat (vectors : List Vec) (q : Vec) (k : Nat) : List (ℚ × ℤ) :=
  let scored := vectors.enum.map (fun p => (sqDist q p.2, (p.1 : ℤ)))
  (List.insertionSort distLe scored).take k

/-- One element of the result list of query: score, raw_distance and the
metadata dict (embedding_manager.py lines 342-346). -/
structure QueryResult where
  score : ℚ
  raw_distance : ℚ
  metadata : Chunk
deriving DecidableEq

/-- Placeholder chunk for the total getD access; never returned because the
access is guarded by the index bound check. -/
def defaultChunk : Chunk := ⟨"", "", 0, 0, ""⟩

/-- Body of the result loop of query (embedding_manager.py lines 331-346):
convert the distance to a similarity 1/(1+distance), drop the hit when a
threshold is given and the similarity is below it, and keep the hit only when
its index lies inside the metadata list. -/
def queryFilter (metadata : List Chunk) (threshold : Option ℚ) (p : ℚ × ℤ) :
    Option QueryResult :=
  if threshold.elim true (fun t => !(decide (1 / (1 + p.1) < t))) then
    if 0 ≤ p.2 ∧ p.2 < (metadata.length : ℤ) then
      some ⟨1 / (1 + p.1), p.1, metadata.getD p.2.toNat defaultChunk⟩
    else none
  else none

/-- query (embedding_manager.py lines 298-355): empty index gives an empty
result list; otherwise the query text is embedded, the index searched for the
min(top_k, ntotal) nearest vectors, and the hits filtered into results. -/
def emQuery (embed : String → Vec) (st : EMState) (query_text : String)
    (top_k : Nat) (threshold : Option ℚ) : List QueryResult :=
  if st.vectors.length = 0 then []
  else
    (searchFlat st.vectors (embed query_text) (min top_k st.vectors.length)).filterMap
      (queryFilter st.metadata threshold)

lemma queryFilter_spec {metadata : List Chunk} {threshold : Option ℚ} {p : ℚ × ℤ}
    {r : QueryResult} (h : queryFilter metadata threshold p = some r) :
    r.raw_distance = p.1 ∧ r.score = 1 / (1 + p.1)
      ∧ (∀ t, threshold = some t → t ≤ r.score)
      ∧ r.metadata ∈ metadata := by
  unfold queryFilter at h
  split_ifs at h with hpass hidx
  · obtain ⟨h1, h2⟩ := hidx
    have hlt : p.2.toNat < metadata.length := by omega
    injection h with hr'
    subst hr'
    refine ⟨rfl, rfl, ?_, ?_⟩
    · intro t ht
      subst ht
      simp only [Option.elim, Bool.not_eq_true', decide_eq_false_iff_not, not_lt] at hpass
      exact hpass
    · simp only
      rw [List.getD_eq_getElem?_getD, List.getElem?_eq_getElem hlt]
      exact List.getElem_mem hlt

lemma emQuery_mem {embed : String → Vec} {st : EMState} {qt : String} {k : Nat}
    {thr : Option ℚ} {r : QueryResult} (h : r ∈ emQuery embed st qt k thr) :
    ∃ p ∈ searchFlat st.vectors (embed qt) (min k st.vectors.length),
      queryFilter st.metadata thr p = some r := by
  unfold emQuery at h
  by_cases hz : st.vectors.length = 0
  · rw [if_pos hz] at h
    exact absurd h (List.not_mem_nil r)
  · rw [if_neg hz] at h
    exact List.mem_filterMap.mp h

/-- C7: query searches the min(top_k, ntotal) nearest vectors (so it returns at
most that many results); every result has score 1/(1+raw_distance); results are
ordered by non-decreasing raw distance; with a threshold every result scores at
least the threshold; and an empty index yields the empty list. -/
theorem query_contract (embed : String → Vec) (st : EMState) (qt : String)
    (k : Nat) (thr : Option ℚ) :
    (st.vectors = [] → emQuery embed st qt k thr = [])
      ∧ (∀ r ∈ emQuery embed st qt k thr, r.score = 1 / (1 + r.raw_distance))
      ∧ List.Sorted (fun a b : QueryResult => a.raw_distance ≤ b.raw_distance)
          (emQuery embed st qt k thr)
      ∧ (∀ t, thr = some t → ∀ r ∈ emQuery embed st qt k thr, t ≤ r.score)
      ∧ (emQuery embed st qt k thr).length ≤ min k st.vectors.length := by
  refine ⟨?_, ?_, ?_, ?_, ?_⟩
  · intro he
    unfold emQuery
    rw [if_pos (by simp [he])]
  · intro r hr
    obtain ⟨p, _, hf⟩ := emQuery_mem hr
    obtain ⟨h1, h2, _, _⟩ := queryFilter_spec hf
    rw [h1, h2]
  · unfold emQuery
    by_cases hz : st.vectors.length = 0
    · rw [if_pos hz]; exact List.sorted_nil
    · rw [if_neg hz]
      have hsorted : List.Sorted distLe
          (searchFlat st.vectors (embed qt) (min k st.vectors.length)) := by
        unfold searchFlat
        exact List.Pairwise.sublist (List.take_sublist _ _)
          (List.sorted_insertionSort distLe _)
      exact List.Pairwise.filterMap (queryFilter st.metadata thr)
        (by
          intro a b hab r hr r' hr'
          have ha := (queryFilter_spec hr).1
          have hb := (queryFilter_spec hr').1
          rw [ha, hb]
          rcases hab with h | ⟨h, _⟩
          · exact le_of_lt h
          · exact le_of_eq h)
        hsorted
  · intro t ht r hr
    obtain ⟨p, _, hf⟩ := emQuery_mem hr
    exact (queryFilter_spec hf).2.2.1 t ht
  · unfold emQuery
    by_cases hz : st.vectors.length = 0
    · rw [if_pos hz]; simp
    · rw [if_neg hz]
      calc (List.filterMap (queryFilter st.metadata thr)
              (searchFlat st.vectors (embed qt) (min k st.vectors.length))).length
          ≤ (searchFlat st.vectors (embed qt) (min k st.vectors.length)).length :=
            List.length_filterMap_le _ _
        _ ≤ min k st.vectors.length := by
            unfold searchFlat
            simp [List.length_take]

/-- Witness for C7: a two-vector index queried with top_k 2 actually returns
the nearest hit with score 1 = 1/(1+0), and the contract applies to it. -/
theorem query_contract_witness :
    (⟨1, 0, ⟨"a.py", "f", 1, 2, "x"⟩⟩ : QueryResult)
        ∈ emQuery (fun _ => [0])
            (EMState.mk [[0], [3]] [⟨"a.py", "f", 1, 2, "x"⟩, ⟨"b.py", "g", 1, 2, "y"⟩] [])
            "q" 2 none
      ∧ (1 : ℚ) = 1 / (1 + 0) :=
  ⟨by with_unfolding_all decide,
   (query_contract (fun _ => [0])
      (EMState.mk [[0], [3]] [⟨"a.py", "f", 1, 2, "x"⟩, ⟨"b.py", "g", 1, 2, "y"⟩] [])
      "q" 2 none).2.1 ⟨1, 0, ⟨"a.py", "f", 1, 2, "x"⟩⟩ (by with_unfolding_all decide)⟩

/-- C10: every result of query carries a metadata entry of the stored metadata
list; a raw search index becomes a result only after the 0 <= idx < len bound
check, so out-of-range indices (including -1 placeholders) are dropped. -/
theorem query_metadata_membership (embed : String → Vec) (st : EMState)
    (qt : String) (k : Nat) (thr : Option ℚ) :
    ∀ r ∈ emQuery embed st qt k thr, r.metadata ∈ st.metadata := by
  intro r hr
  obtain ⟨p, _, hf⟩ := emQuery_mem hr
  exact (queryFilter_spec hf).2.2.2

/-- Witness for C10: a concrete query result whose metadata is indeed one of
the two stored metadata entries. -/
theorem query_metadata_membership_witness :
    (⟨1, 0, ⟨"a.py", "f", 1, 2, "x"⟩⟩ : QueryResult)
        ∈ emQuery (fun _ => [0])
            (EMState.mk [[0], [3]] [⟨"a.py", "f", 1, 2, "x"⟩, ⟨"b.py", "g", 1, 2, "y"⟩] [])
            "q" 1 (some (1 / 2))
      ∧ (⟨"a.py", "f", 1, 2, "x"⟩ : Chunk)
        ∈ [⟨"a.py", "f", 1, 2, "x"⟩, (⟨"b.py", "g", 1, 2, "y"⟩ : Chunk)] :=
  ⟨by with_unfolding_all decide,
   query_metadata_membership (fun _ => [0])
     (EMState.mk [[0], [3]] [⟨"a.py", "f", 1, 2, "x"⟩, ⟨"b.py", "g", 1, 2, "y"⟩] [])
     "q" 1 (some (1 / 2)) ⟨1, 0, ⟨"a.py", "f", 1, 2, "x"⟩⟩ (by with_unfolding_all decide)⟩

/-- A node of the persisted dependency graph
(dependency_graph_builder.py lines 160-165). -/
structure GraphNode where
  file : String
  name : String
  calls : List String
  called_by : List String
deriving DecidableEq

/-- The dependency graph dict, keyed by file::name. -/
abbrev Graph := List (String × GraphNode)

/-- A match dict handled by the RAG manager. Raw vector matches carry score,
raw_distance and metadata; entries appended by dependency expansion carry
score 0.0, no raw_distance and is_dependency true (rag_manager.py lines
268-272). The Bool field makes the heterogeneous Python dicts one type. -/
structure RMatch where
  score : ℚ
  raw_distance : Option ℚ
  metadata : Chunk
  is_dependency : Bool
deriving DecidableEq

/-- Key path::name of a match, as computed in rag_manager.py line 238. -/
def rmatchKey (m : RMatch) : String := m.metadata.path ++ "::" ++ m.metadata.name

/-- Python set.update modelled on insertion-ordered duplicate-free lists:
append the elements of xs that are not yet present. -/
def addNew (acc : List String) (xs : List String) : List String :=
  xs.foldl (fun a x => if x ∈ a then a else a ++ [x]) acc

/-- Inner loop of _enhance_with_dependencies for one dependency name
(rag_manager.py lines 260-273): every graph node with that name whose key is
not yet seen is marked seen, and when a metadata entry with the node's file and
name exists the first one is appended as a dependency match. -/
def enhanceStep (metadata : List Chunk) (graph : Graph)
    (st : List RMatch × List String) (dep : String) : List RMatch × List String :=
  graph.foldl (fun st2 kn =>
    if kn.2.name = dep ∧ ¬ kn.1 ∈ st2.2 then
      let seen' := st2.2 ++ [kn.1]
      match metadata.find? (fun meta => meta.path == kn.2.file && meta.name == kn.2.name) with
      | some meta => (st2.1 ++ [⟨0, none, meta, true⟩], seen')
      | none => (st2.1, seen')
    else st2) st

/-- _enhance_with_dependencies (rag_manager.py lines 227-275): a missing graph
file (graph? = none) returns the matches unchanged; otherwise the calls and
called_by names of every directly matched key are collected (a Python set,
modelled as an insertion-ordered duplicate-free list) and each is expanded. -/
def enhanceWithDependencies (graph? : Option Graph) (metadata : List Chunk)
    (ms : List RMatch) : List RMatch :=
  match graph? with
  | none => ms
  | some graph =>
    let deps := ms.foldl (fun acc m =>
      match dictGet graph (rmatchKey m) with
      | some node => addNew acc (node.calls ++ node.called_by)
      | none => acc) []
    (deps.foldl (enhanceStep metadata graph) (ms, ms.map rmatchKey)).1

/-- retrieve (rag_manager.py lines 192-225): run the vector query (threshold
never passed there) and, when dependency inclusion is requested, expand the raw
matches with dependencies. -/
def retrieve (embed : String → Vec) (st : EMState) (graph? : Option Graph)
    (query : String) (top_k : Nat) (include_deps : Bool) : List RMatch :=
  let raw := (emQuery embed st query top_k none).map
    (fun r => ⟨r.score, some r.raw_distance, r.metadata, false⟩)
  if include_deps then enhanceWithDependencies graph? st.metadata raw else raw

lemma enhanceStep_extends (metadata : List Chunk) (graph : Graph) (dep : String) :
    ∀ st : List RMatch × List String,
      ∃ extra, (enhanceStep metadata graph st dep).1 = st.1 ++ extra := by
  unfold enhanceStep
  induction graph with
  | nil => intro st; exact ⟨[], (List.append_nil _).symm⟩
  | cons kn rest ih =>
    intro st
    simp only [List.foldl_cons]
    by_cases hc : kn.2.name = dep ∧ ¬ kn.1 ∈ st.2
    · rw [if_pos hc]
      cases hf : metadata.find? (fun meta => meta.path == kn.2.file && meta.name == kn.2.name) with
      | some meta =>
        obtain ⟨extra, he⟩ := ih (st.1 ++ [⟨0, none, meta, true⟩], st.2 ++ [kn.1])
        exact ⟨⟨0, none, meta, true⟩ :: extra, by rw [he]; simp⟩
      | none =>
        obtain ⟨extra, he⟩ := ih (st.1, st.2 ++ [kn.1])
        exact ⟨extra, he⟩
    · rw [if_neg hc]
      exact ih st

lemma enhance_extends (graph? : Option Graph) (metadata : List Chunk)
    (ms : List RMatch) :
    ∃ extra, enhanceWithDependencies graph? metadata ms = ms ++ extra := by
  cases graph? with
  | none => exact ⟨[], (List.append_nil _).symm⟩
  | some graph =>
    unfold enhanceWithDependencies
    have hgen : ∀ (deps : List String) (st : List RMatch × List String),
        ∃ extra, (deps.foldl (enhanceStep metadata graph) st).1 = st.1 ++ extra := by
      intro deps
      induction deps with
      | nil => intro st; exact ⟨[], (List.append_nil _).symm⟩
      | cons d rest ih =>
        intro st
        simp only [List.foldl_cons]
        obtain ⟨e1, he1⟩ := enhanceStep_extends metadata graph d st
        obtain ⟨e2, he2⟩ := ih (enhanceStep metadata graph st d)
        exact ⟨e1 ++ e2, by rw [he2, he1, List.append_assoc]⟩
    simpa using hgen _ (ms, ms.map rmatchKey)

/-- C9: dependency expansion only appends, so retrieve with dependencies keeps
the direct hits as an unchanged initial segment (no removal, no reordering) and
its key set is a superset of the keys of retrieve without dependencies. -/
theorem retrieve_dependency_superset (embed : String → Vec) (st : EMState)
    (graph? : Option Graph) (q : String) (top_k : Nat) :
    (retrieve embed st graph? q top_k true).take
        (retrieve embed st graph? q top_k false).length
      = retrieve embed st graph? q top_k false
      ∧ ∀ m ∈ retrieve embed st graph? q top_k false,
          rmatchKey m ∈ (retrieve embed st graph? q top_k true).map rmatchKey := by
  obtain ⟨extra, he⟩ := enhance_extends graph? st.metadata
    ((emQuery embed st q top_k none).map
      (fun r => ⟨r.score, some r.raw_distance, r.metadata, false⟩))
  have hfalse : retrieve embed st graph? q top_k false
      = (emQuery embed st q top_k none).map
        (fun r => ⟨r.score, some r.raw_distance, r.metadata, false⟩) := rfl
  have htrue : retrieve embed st graph? q top_k true
      = retrieve embed st graph? q top_k false ++ extra := by
    rw [hfalse]
    exact he
  constructor
  · rw [htrue, List.take_left]
  · intro m hm
    rw [htrue, List.map_append]
    exact List.mem_append_left _ (List.mem_map_of_mem rmatchKey hm)

/-- Witness for C9: on a concrete one-vector index without a graph file, the
key of the single direct hit also appears among the keys of the expanded
result. -/
theorem retrieve_dependency_superset_witness :
    (⟨1, some 0, ⟨"a.py", "f", 1, 2, "x"⟩, false⟩ : RMatch)
        ∈ retrieve (fun _ => [0]) (EMState.mk [[0]] [⟨"a.py", "f", 1, 2, "x"⟩] [])
            none "q" 1 false
      ∧ rmatchKey ⟨1, some 0, ⟨"a.py", "f", 1, 2, "x"⟩, false⟩
        ∈ (retrieve (fun _ => [0]) (EMState.mk [[0]] [⟨"a.py", "f", 1, 2, "x"⟩] [])
            none "q" 1 true).map rmatchKey :=
  ⟨by with_unfolding_all decide,
   (retrieve_dependency_superset (fun _ => [0])
      (EMState.mk [[0]] [⟨"a.py", "f", 1, 2, "x"⟩] []) none "q" 1).2
      ⟨1, some 0, ⟨"a.py", "f", 1, 2, "x"⟩, false⟩ (by with_unfolding_all decide)⟩

/-- Python str.endswith, on the character lists of the strings. -/
def strEndsWith (s sfx : String) : Bool :=
  if sfx.data.length ≤ s.data.length then
    s.data.drop (s.data.length - sfx.data.length) == sfx.data
  else false

/-- Python "\n".join, as used for the context and for window codes. -/
def joinNL : List String → String
  | [] => ""
  | [b] => b
  | b :: rest => b ++ "\n" ++ joinNL rest

/-- get_related_keys (rag_manager.py lines 314-318): union of the calls and
called_by lists of the graph node keyed by the chunk, a Python set modelled as
an insertion-ordered duplicate-free list; empty when the key has no node. -/
def relatedNames (graph : Graph) (meta : Chunk) : List String :=
  match dictGet graph (chunkKey meta) with
  | none => []
  | some node => addNew [] (node.calls ++ node.called_by)

/-- Context block of a direct match (rag_manager.py line 336); fmt models the
Python .4f float formatting of the score. -/
def chunkBlockText (fmt : ℚ → String) (m : RMatch) : String :=
  "# File: " ++ rmatchKey m ++ " (Score: " ++ fmt m.score ++ ")\n" ++ m.metadata.code ++ "\n"

/-- Context block of a related chunk (rag_manager.py line 351). -/
def relBlockText (k : String) (m : RMatch) : String :=
  "# File: " ++ k ++ " (related)\n" ++ m.metadata.code ++ "\n"

/-- Loop state of the context assembly in build_prompt: seen keys, accepted
context blocks and the running context_length counter. -/
structure PromptAcc where
  seen : List String
  blocks : List String
  ctx_len : Nat
deriving DecidableEq

/-- The all_chunks lookup dict of build_prompt (rag_manager.py line 321). -/
def allChunksDict (ms : List RMatch) : List (String × RMatch) :=
  ms.foldl (fun d m => dictSet d (rmatchKey m) m) []

/-- Related-chunk inner loop of build_prompt (rag_manager.py lines 347-360):
for each related name, the first all_chunks key ending in ::name is looked up;
an unseen key whose block still fits is marked seen and appended, a block that
would exceed max_context_length is skipped without being marked seen. -/
def addRelatedBlocks (graph : Graph) (all_chunks : List (String × RMatch))
    (maxLen : Nat) (meta : Chunk) (acc : PromptAcc) : PromptAcc :=
  (relatedNames graph meta).foldl (fun a rel =>
    match (all_chunks.map Prod.fst).find? (fun k => strEndsWith k ("::" ++ rel)) with
    | none => a
    | some rk =>
      if rk ∈ a.seen then a
      else
        match dictGet all_chunks rk with
        | none => a
        | some rm =>
          let txt := relBlockText rk rm
          if maxLen < a.ctx_len + txt.length then a
          else ⟨a.seen ++ [rk], a.blocks ++ [txt], a.ctx_len + txt.length⟩) acc

/-- Outer loop body of the context assembly (rag_manager.py lines 329-360):
a match whose key was already seen is skipped; a block that would push
context_length over max_context_length is skipped entirely (also skipping its
related-chunk expansion); an accepted block is followed by the related-chunk
inner loop. -/
def promptStep (fmt : ℚ → String) (graph : Graph)
    (all_chunks : List (String × RMatch)) (maxLen : Nat)
    (acc : PromptAcc) (m : RMatch) : PromptAcc :=
  let key := rmatchKey m
  if key ∈ acc.seen then acc
  else
    let txt := chunkBlockText fmt m
    if maxLen < acc.ctx_len + txt.length then acc
    else
      addRelatedBlocks graph all_chunks maxLen m.metadata
        ⟨acc.seen ++ [key], acc.blocks ++ [txt], acc.ctx_len + txt.length⟩

/-- Context assembly of build_prompt (rag_manager.py lines 299-361). -/
def buildPromptBlocks (fmt : ℚ → String) (graph : Graph) (ms : List RMatch)
    (maxLen : Nat) : PromptAcc :=
  ms.foldl (promptStep fmt graph (allChunksDict ms) maxLen) ⟨[], [], 0⟩

/-- Python float formatting percent .4f for the nonnegative exact scores
appearing in this model: integer part, a dot, and the first four fraction
digits. -/
def formatScore4 (q : ℚ) : String :=
  let n := (q * 10000).floor.toNat
  let frac := n % 10000
  let fracStr :=
    if frac < 10 then "000" ++ toString frac
    else if frac < 100 then "00" ++ toString frac
    else if frac < 1000 then "0" ++ toString frac
    else toString frac
  toString (n / 10000) ++ "." ++ fracStr

/-- The assembled context portion of build_prompt: the text placed between
Kontext: and the Frage line, the newline join of the accepted context blocks
(rag_manager.py lines 365-371). -/
def promptContext (fmt : ℚ → String) (embed : String → Vec) (st : EMState)
    (graph? : Option Graph) (query : String) (top_k maxLen : Nat) : String :=
  joinNL (buildPromptBlocks fmt (graph?.getD [])
    (retrieve embed st graph? query top_k true) maxLen).blocks

/-- build_prompt (rag_manager.py lines 277-378): the full prompt string around
the assembled context. -/
def buildPrompt (fmt : ℚ → String) (embed : String → Vec) (st : EMState)
    (graph? : Option Graph) (query : String) (top_k maxLen : Nat) : String :=
  "Du bist ein hochprofessioneller Code-Assistent. Verwende den folgenden Kontext aus dem lokalen Verzeichnis, um die Frage zu beantworten.\n"
    ++ "Kontext:\n" ++ promptContext fmt embed st graph? query top_k maxLen ++ "\n"
    ++ "Frage: " ++ query ++ "\n"
    ++ "Antworte mit Code-Snippets und Erklärungen nach Bedarf. Wenn der Kontext nicht ausreicht, gib an, welche Informationen fehlen."

lemma dictGet_mem {α : Type} {d : List (String × α)} {k : String} {v : α}
    (h : dictGet d k = some v) : (k, v) ∈ d := by
  induction d with
  | nil => cases h
  | cons e rest ih =>
    unfold dictGet at h
    by_cases he : e.1 = k
    · rw [if_pos he] at h
      injection h with hv
      obtain ⟨k', v'⟩ := e
      simp only at he hv
      subst he
      subst hv
      exact List.mem_cons_self _ _
    · rw [if_neg he] at h
      exact List.mem_cons_of_mem e (ih h)

/-- Invariant carried through the context assembly: the counter equals the sum
of the accepted block lengths, stays within the bound, and every accepted
block is a complete block of a candidate (never truncated). -/
def promptInv (fmt : ℚ → String) (ms : List RMatch) (maxLen : Nat)
    (a : PromptAcc) : Prop :=
  (a.blocks.map String.length).sum = a.ctx_len ∧ a.ctx_len ≤ maxLen ∧
    ∀ b ∈ a.blocks, (∃ m ∈ ms, b = chunkBlockText fmt m)
      ∨ ∃ e ∈ allChunksDict ms, b = relBlockText e.1 e.2

lemma addRelatedBlocks_inv (fmt : ℚ → String) (ms : List RMatch) (graph : Graph)
    (maxLen : Nat) (meta : Chunk) (acc : PromptAcc)
    (h : promptInv fmt ms maxLen acc) :
    promptInv fmt ms maxLen (addRelatedBlocks graph (allChunksDict ms) maxLen meta acc) := by
  unfold addRelatedBlocks
  generalize relatedNames graph meta = names
  induction names generalizing acc with
  | nil => exact h
  | cons rel rest ih =>
    simp only [List.foldl_cons]
    apply ih
    cases hfind : ((allChunksDict ms).map Prod.fst).find? (fun k => strEndsWith k ("::" ++ rel)) with
    | none => exact h
    | some rk =>
      by_cases hseen : rk ∈ acc.seen
      · simp only [hfind, if_pos hseen]
        exact h
      · simp only [hfind, if_neg hseen]
        cases hget : dictGet (allChunksDict ms) rk with
        | none => exact h
        | some rm =>
          by_cases hlen : maxLen < acc.ctx_len + (relBlockText rk rm).length
          · simp only [if_pos hlen]
            exact h
          · simp only [if_neg hlen]
            obtain ⟨h1, h2, h3⟩ := h
            refine ⟨?_, ?_, ?_⟩
            · simp [h1]
            · show acc.ctx_len + (relBlockText rk rm).length ≤ maxLen
              omega
            · intro b hb
              rcases List.mem_append.mp hb with hb | hb
              · exact h3 b hb
              · rcases List.mem_singleton.mp hb with rfl
                exact Or.inr ⟨(rk, rm), dictGet_mem hget, rfl⟩

lemma promptStep_inv (fmt : ℚ → String) (ms : List RMatch) (graph : Graph)
    (maxLen : Nat) (acc : PromptAcc) (m : RMatch) (hm : m ∈ ms)
    (h : promptInv fmt ms maxLen acc) :
    promptInv fmt ms maxLen (promptStep fmt graph (allChunksDict ms) maxLen acc m) := by
  unfold promptStep
  by_cases hseen : rmatchKey m ∈ acc.seen
  · simp only [if_pos hseen]
    exact h
  · simp only [if_neg hseen]
    by_cases hlen : maxLen < acc.ctx_len + (chunkBlockText fmt m).length
    · simp only [if_pos hlen]
      exact h
    · simp only [if_neg hlen]
      apply addRelatedBlocks_inv
      obtain ⟨h1, h2, h3⟩ := h
      refine ⟨?_, ?_, ?_⟩
      · simp [h1]
      · show acc.ctx_len + (chunkBlockText fmt m).length ≤ maxLen
        omega
      · intro b hb
        rcases List.mem_append.mp hb with hb | hb
        · exact h3 b hb
        · rcases List.mem_singleton.mp hb with rfl
          exact Or.inl ⟨m, hm, rfl⟩

lemma joinNL_length (bs : List String) :
    (joinNL bs).length = (bs.map String.length).sum + (bs.length - 1) := by
  induction bs with
  | nil => simp [joinNL]
  | cons b rest ih =>
    cases rest with
    | nil => simp [joinNL]
    | cons b2 rest2 =>
      have hne : (b2 :: rest2 : List String) ≠ [] := by simp
      show (b ++ "\n" ++ joinNL (b2 :: rest2)).length = _
      simp only [String.length_append, ih, List.map_cons, List.sum_cons, List.length_cons]
      have : ("\n" : String).length = 1 := rfl
      simp only [this]
      omega

/-- C5 amended: the context assembly keeps the sum of the accepted block
lengths (the context_length counter) within max_context_length, so the
newline-joined context portion can exceed the bound only by the number of
block separators; a candidate block that would exceed the bound is skipped
entirely, never truncated (every accepted block is the complete block text of
a direct match or of an all_chunks entry), and accumulation continues. -/
theorem prompt_context_bound (fmt : ℚ → String) (graph : Graph)
    (ms : List RMatch) (maxLen : Nat) :
    ((buildPromptBlocks fmt graph ms maxLen).blocks.map String.length).sum ≤ maxLen
      ∧ (joinNL (buildPromptBlocks fmt graph ms maxLen).blocks).length
        ≤ maxLen + ((buildPromptBlocks fmt graph ms maxLen).blocks.length - 1)
      ∧ ∀ b ∈ (buildPromptBlocks fmt graph ms maxLen).blocks,
          (∃ m ∈ ms, b = chunkBlockText fmt m)
            ∨ ∃ e ∈ allChunksDict ms, b = relBlockText e.1 e.2 := by
  have hinv : promptInv fmt ms maxLen (buildPromptBlocks fmt graph ms maxLen) := by
    unfold buildPromptBlocks
    have hgen : ∀ (l : List RMatch) (acc : PromptAcc), (∀ m ∈ l, m ∈ ms) →
        promptInv fmt ms maxLen acc →
        promptInv fmt ms maxLen
          (l.foldl (promptStep fmt graph (allChunksDict ms) maxLen) acc) := by
      intro l
      induction l with
      | nil => intro acc _ h; exact h
      | cons m rest ih =>
        intro acc hsub h
        simp only [List.foldl_cons]
        exact ih _ (fun x hx => hsub x (List.mem_cons_of_mem m hx))
          (promptStep_inv fmt ms graph maxLen acc m (hsub m (List.mem_cons_self m rest)) h)
    exact hgen ms ⟨[], [], 0⟩ (fun x hx => hx) ⟨rfl, Nat.zero_le _, by simp⟩
  obtain ⟨h1, h2, h3⟩ := hinv
  refine ⟨by omega, ?_, h3⟩
  rw [joinNL_length]
  omega

/-- Chunks and state of the C5 scenario: two one-character chunks whose
stored vectors coincide with the query embedding, so both are returned with
distance 0 and score 1. -/
def c5State : EMState :=
  ⟨[[0], [0]], [⟨"a", "b", 1, 1, "x"⟩, ⟨"a", "c", 1, 1, "x"⟩], []⟩

/-- C5 counterexample: with max_context_length 62, both 31-character blocks
are accepted because the context_length counter (their plain sum, 62) stays
within the bound, but the assembled context portion between Kontext: and the
Frage line, the newline join of the blocks, has 63 characters: the claim that
the joined context portion never exceeds max_context_length is false. -/
theorem prompt_context_exceeds_bound :
    62 < (promptContext formatScore4 (fun _ => [0]) c5State (some []) "q" 2 62).length := by
  with_unfolding_all decide

/-- Witness for the amended C5: on the concrete C5 scenario the first accepted
block is the complete block text of one of the matches. -/
theorem prompt_context_bound_witness :
    "# File: a::b (Score: 1.0000)\nx\n"
        ∈ (buildPromptBlocks formatScore4 []
            (retrieve (fun _ => [0]) c5State (some []) "q" 2 true) 62).blocks
      ∧ ((∃ m ∈ retrieve (fun _ => [0]) c5State (some []) "q" 2 true,
            "# File: a::b (Score: 1.0000)\nx\n" = chunkBlockText formatScore4 m)
          ∨ ∃ e ∈ allChunksDict (retrieve (fun _ => [0]) c5State (some []) "q" 2 true),
            "# File: a::b (Score: 1.0000)\nx\n" = relBlockText e.1 e.2) :=
  ⟨by with_unfolding_all decide,
   (prompt_context_bound formatScore4 []
      (retrieve (fun _ => [0]) c5State (some []) "q" 2 true) 62).2.2
      "# File: a::b (Score: 1.0000)\nx\n" (by with_unfolding_all decide)⟩

lemma dictGet_dictSet_self {α : Type} (d : List (String × α)) (k : String) (v : α) :
    dictGet (dictSet d k v) k = some v := by
  induction d with
  | nil => simp [dictSet, dictGet]
  | cons e rest ih =>
    unfold dictSet
    by_cases he : e.1 = k
    · rw [if_pos he]
      simp [dictGet]
    · rw [if_neg he]
      unfold dictGet
      rw [if_neg he]
      exact ih

lemma dictGet_dictSet_ne {α : Type} (d : List (String × α)) {k k' : String}
    (h : k ≠ k') (v : α) : dictGet (dictSet d k v) k' = dictGet d k' := by
  induction d with
  | nil => simp [dictSet, dictGet, h]
  | cons e rest ih =>
    unfold dictSet
    by_cases he : e.1 = k
    · rw [if_pos he]
      unfold dictGet
      rw [if_neg h, if_neg (he ▸ h : ¬ e.1 = k')]
    · rw [if_neg he]
      unfold dictGet
      by_cases he' : e.1 = k'
      · rw [if_pos he', if_pos he']
      · rw [if_neg he', if_neg he']
        exact ih

lemma dictGet_filter_key {α : Type} (d : List (String × α)) (f : String → Bool)
    (k : String) :
    dictGet (d.filter (fun e => f e.1)) k = if f k then dictGet d k else none := by
  induction d with
  | nil => simp [dictGet]
  | cons e rest ih =>
    obtain ⟨a, v⟩ := e
    by_cases he : a = k
    · subst he
      by_cases hf : f a
      · simp [List.filter_cons, hf, dictGet]
      · simp only [Bool.not_eq_true] at hf
        simp [List.filter_cons, hf, ih, dictGet]
    · by_cases hf : f a
      · simp [List.filter_cons, hf, dictGet, he, ih]
      · simp only [Bool.not_eq_true] at hf
        simp [List.filter_cons, hf, dictGet, he, ih]

/-- One directory entry visited by the recursive scan of scan_for_changes
(local_scan_manager.py lines 211-235), modelled by the relative path of a
tracked file together with the calculate_file_hash result (none models the
empty-string hash returned on read errors, which makes the loop skip the
file). -/
abbrev ScanEntry := String × Option String

/-- Loop body of the scan over one tracked file (local_scan_manager.py lines
222-235): a file whose hash could not be computed is skipped; otherwise it is
recorded as changed, and its hash stored, when force_rescan is set, the path is
unknown, or the stored hash differs. -/
def scanStep (force : Bool) (acc : List String × List (String × String))
    (e : ScanEntry) : List String × List (String × String) :=
  match e.2 with
  | none => acc
  | some h =>
    if force ∨ dictGet acc.2 e.1 ≠ some h then (acc.1 ++ [e.1], dictSet acc.2 e.1 h)
    else acc

/-- scan_for_changes (local_scan_manager.py lines 174-259): walk the tracked
files (fs lists them in visiting order: the directory listing), then treat
stored paths that are no longer present as deleted: they are removed from the
hash map and added to the changed set. Returns the changed list and the
persisted hash map. current_files is the set of visited tracked paths. -/
def scanForChanges (force : Bool) (fs : List ScanEntry)
    (hashes : List (String × String)) : List String × List (String × String) :=
  let afterLoop := fs.foldl (scanStep force) ([], hashes)
  let current := fs.map Prod.fst
  let deleted := (afterLoop.2.map Prod.fst).filter (fun p => !(decide (p ∈ current)))
  (afterLoop.1 ++ deleted, afterLoop.2.filter (fun e => decide (e.1 ∈ current)))

lemma scanLoop_get_of_not_mem (force : Bool) (p : String) :
    ∀ (fs : List ScanEntry) (acc : List String × List (String × String)),
      p ∉ fs.map Prod.fst →
      dictGet (fs.foldl (scanStep force) acc).2 p = dictGet acc.2 p := by
  intro fs
  induction fs with
  | nil => intro acc _; rfl
  | cons e rest ih =>
    intro acc hp
    simp only [List.map_cons, List.mem_cons, not_or] at hp
    obtain ⟨hne, hrest⟩ := hp
    simp only [List.foldl_cons]
    rw [ih _ (by simpa using hrest)]
    show dictGet (scanStep force acc e).2 p = dictGet acc.2 p
    unfold scanStep
    cases he : e.2 with
    | none => rfl
    | some h =>
      simp only
      split_ifs with hc
      · show dictGet (dictSet acc.2 e.1 h) p = dictGet acc.2 p
        exact dictGet_dictSet_ne _ (fun hk => hne hk.symm) _
      · rfl

lemma scanLoop_get_visited (force : Bool) :
    ∀ (fs : List ScanEntry) (acc : List String × List (String × String))
      (p : String) (h' : String),
      (p, some h') ∈ fs → (fs.map Prod.fst).Nodup →
      dictGet (fs.foldl (scanStep force) acc).2 p = some h' := by
  intro fs
  induction fs with
  | nil => intro acc p h' hm; cases hm
  | cons e rest ih =>
    intro acc p h' hm hnd
    simp only [List.map_cons, List.nodup_cons] at hnd
    obtain ⟨hhead, htail⟩ := hnd
    simp only [List.foldl_cons]
    rcases List.mem_cons.mp hm with he | he
    · have hp : e.1 = p := by rw [← he]
      have hnp : p ∉ rest.map Prod.fst := hp ▸ hhead
      rw [scanLoop_get_of_not_mem force p rest _ hnp]
      show dictGet (scanStep force acc e).2 p = some h'
      unfold scanStep
      rw [← he]
      simp only
      split_ifs with hc
      · show dictGet (dictSet acc.2 p h') p = some h'
        exact dictGet_dictSet_self _ _ _
      · push_neg at hc
        exact hc.2
    · exact ih _ p h' he htail

lemma scanLoop_no_change (H : List (String × String)) :
    ∀ (fs : List ScanEntry) (c : List String),
      (∀ e ∈ fs, ∀ h', e.2 = some h' → dictGet H e.1 = some h') →
      fs.foldl (scanStep false) (c, H) = (c, H) := by
  intro fs
  induction fs with
  | nil => intro c _; rfl
  | cons e rest ih =>
    intro c hh
    simp only [List.foldl_cons]
    have hstep : scanStep false (c, H) e = (c, H) := by
      unfold scanStep
      cases he : e.2 with
      | none => rfl
      | some h =>
        have hg := hh e (List.mem_cons_self e rest) h he
        simp only
        rw [if_neg (by simp [hg])]
    rw [hstep]
    exact ih c (fun x hx => hh x (List.mem_cons_of_mem e hx))

/-- C8: running scan_for_changes (force_rescan false) twice over an unchanged
directory (same files, same contents, same listing, so the second run visits
the same entries with the same hash results) yields an empty changed set on the
second run. -/
theorem scan_for_changes_idempotent (fs : List ScanEntry)
    (h0 : List (String × String)) (hnd : (fs.map Prod.fst).Nodup) :
    (scanForChanges false fs (scanForChanges false fs h0).2).1 = [] := by
  have hget : ∀ e ∈ fs, ∀ h', e.2 = some h' →
      dictGet (scanForChanges false fs h0).2 e.1 = some h' := by
    intro e he h' he2
    show dictGet ((fs.foldl (scanStep false) ([], h0)).2.filter
      (fun x => decide (x.1 ∈ fs.map Prod.fst))) e.1 = some h'
    rw [dictGet_filter_key _ (fun k => decide (k ∈ fs.map Prod.fst)) e.1]
    rw [if_pos (by simpa using List.mem_map_of_mem Prod.fst he)]
    have hmem : (e.1, some h') ∈ fs := by
      have : e = (e.1, some h') := by
        cases e
        simp only at he2 ⊢
        rw [he2]
      rw [← this]
      exact he
    exact scanLoop_get_visited false fs _ e.1 h' hmem hnd
  have hloop : fs.foldl (scanStep false) ([], (scanForChanges false fs h0).2)
      = ([], (scanForChanges false fs h0).2) :=
    scanLoop_no_change _ fs [] hget
  show (fs.foldl (scanStep false) ([], (scanForChanges false fs h0).2)).1
      ++ ((fs.foldl (scanStep false) ([], (scanForChanges false fs h0).2)).2.map
          Prod.fst).filter (fun p => !(decide (p ∈ fs.map Prod.fst))) = []
  rw [hloop]
  simp only [List.nil_append]
  rw [List.filter_eq_nil_iff]
  intro k hk
  obtain ⟨x, hx, hxk⟩ := List.mem_map.mp hk
  have hxcur : x.1 ∈ fs.map Prod.fst := by
    have : x ∈ (fs.foldl (scanStep false) ([], h0)).2.filter
        (fun e => decide (e.1 ∈ fs.map Prod.fst)) := hx
    have := List.of_mem_filter this
    simpa using this
  simp [hxk ▸ hxcur]

/-- Witness for C8: a concrete one-file directory scanned twice from an empty
hash store reports the file changed on the first run and nothing on the
second. -/
theorem scan_for_changes_idempotent_witness :
    ((([("a.py", some "h1")] : List ScanEntry).map Prod.fst).Nodup)
      ∧ (scanForChanges false [("a.py", some "h1")]
          (scanForChanges false [("a.py", some "h1")] []).2).1 = [] :=
  ⟨by decide,
   scan_for_changes_idempotent [("a.py", some "h1")] [] (by decide)⟩

/-- A top-level function, async function or class definition of a Python file,
with the call-target names that the FunctionCallVisitor extracts from its body
(dependency_graph_builder.py lines 141-156: a Name call contributes its id, an
attribute call its attribute name). -/
structure PyDef where
  name : String
  call_targets : List String
deriving DecidableEq

/-- A Python file as seen by build_graph: its repo-relative path, its content
fingerprint (sha256 modelled by an uninterpreted string) and its parsed top-level
definitions. -/
structure PyFile where
  rel_path : String
  content_hash : String
  defs : List PyDef
deriving DecidableEq

/-- The calls dict built by _process_file (dependency_graph_builder.py lines
137-156): a definition receives an entry only when at least one call node is
visited inside it; each visited target is added to the set of that definition
(the Python set is modelled as an insertion-ordered duplicate-free list). -/
def collectCalls (defs : List PyDef) : List (String × List String) :=
  defs.foldl (fun acc d =>
    d.call_targets.foldl (fun acc2 t =>
      match dictGet acc2 d.name with
      | none => dictSet acc2 d.name [t]
      | some ts => dictSet acc2 d.name (if t ∈ ts then ts else ts ++ [t])) acc) []

/-- Graph-entry creation of _process_file (dependency_graph_builder.py lines
158-165): for every definition of the file that has calls, the node keyed
rel_path::name is written with its calls list and an empty called_by list.
Definitions without calls produce no node. -/
def processFile (g : Graph) (f : PyFile) : Graph :=
  (collectCalls f.defs).foldl
    (fun g2 fc => dictSet g2 (f.rel_path ++ "::" ++ fc.1) ⟨f.rel_path, fc.1, fc.2, []⟩) g

/-- In-memory state of a DependencyGraphBuilder: self.graph and
self.file_hashes (dependency_graph_builder.py lines 18-19). A fresh instance
has an empty graph; load_hashes only fills file_hashes. -/
structure BuilderState where
  graph : Graph
  file_hashes : List (String × String)
deriving DecidableEq

/-- Result of one build_graph run: the graph and hash map it persists and the
changed-file set it records. -/
structure BuildResult where
  graph : Graph
  file_hashes : List (String × String)
  changed : List String
deriving DecidableEq

/-- _file_changed (dependency_graph_builder.py lines 98-111): a file counts as
changed when the hash file does not exist on disk, the path is unknown, or the
stored fingerprint differs from the current one. -/
def fileChanged (hfe : Bool) (hashes : List (String × String)) (f : PyFile) : Bool :=
  if hfe = false then true
  else
    match dictGet hashes f.rel_path with
    | none => true
    | some h => h != f.content_hash

/-- Per-file step of build_graph (dependency_graph_builder.py lines 57-66):
a changed file is processed (its nodes written, its hash updated, its path
recorded as changed); an unchanged file is skipped entirely. -/
def buildStep (hfe : Bool) (acc : Graph × List (String × String) × List String)
    (f : PyFile) : Graph × List (String × String) × List String :=
  if fileChanged hfe acc.2.1 f then
    (processFile acc.1 f, dictSet acc.2.1 f.rel_path f.content_hash,
      acc.2.2 ++ [f.rel_path])
  else acc

/-- One called_by append of the reverse pass (dependency_graph_builder.py line
76): every node whose name equals the called name gets the caller appended. -/
def appendCaller (caller called : String) (g : Graph) : Graph :=
  g.map (fun kn =>
    if kn.2.name = called then
      (kn.1, ⟨kn.2.file, kn.2.name, kn.2.calls, kn.2.called_by ++ [caller]⟩)
    else kn)

/-- Reverse pass body for one source node (dependency_graph_builder.py lines
72-76): look the node up in the current graph and append its name to the
called_by list of every node matching one of its calls. -/
def reverseStep (g : Graph) (key : String) : Graph :=
  match dictGet g key with
  | none => g
  | some meta => meta.calls.foldl (fun g2 called => appendCaller meta.name called g2) g

/-- The reverse pass of build_graph iterates the keys of the graph while
mutating node values in place (key set unchanged). -/
def reversePass (g : Graph) : Graph := (g.map Prod.fst).foldl reverseStep g

/-- build_graph (dependency_graph_builder.py lines 23-96): with no Python file
nothing happens (no reverse pass, no save); otherwise every changed file is
processed, the reverse pass fills called_by over the whole current graph, and
graph and hashes are persisted. hfe tells whether the hash file exists on disk
(checked by _file_changed each call and constant during a run). -/
def buildGraph (hfe : Bool) (st : BuilderState) (files : List PyFile) : BuildResult :=
  if files = [] then ⟨st.graph, st.file_hashes, []⟩
  else
    let step := files.foldl (buildStep hfe) (st.graph, st.file_hashes, [])
    ⟨reversePass step.1, step.2.1, step.2.2⟩

/-- The two-file project of C3: a.py defines helper with no calls, b.py defines
main which calls helper. -/
def c3Files : List PyFile :=
  [⟨"a.py", "ha", [⟨"helper", []⟩]⟩, ⟨"b.py", "hb", [⟨"main", ["helper"]⟩]⟩]

/-- C3 counterexample: building the graph of the two-file project from a fresh
builder produces no node keyed a.py::helper at all (helper makes no call, so
the calls dict has no entry for it and no graph node is created), hence no
called_by list containing main exists: the claimed a::helper node is absent. -/
theorem build_graph_no_helper_node :
    dictGet (buildGraph false ⟨[], []⟩ c3Files).graph "a.py::helper" = none := by
  decide

/-- C3 amended: on the two-file project the graph holds exactly one node, keyed
b.py::main, whose calls list contains helper; since nodes exist only for
definitions that make at least one call, there is no node named helper and
consequently no called_by entry is ever produced. -/
theorem build_graph_two_file_project :
    (buildGraph false ⟨[], []⟩ c3Files).graph
      = [("b.py::main", ⟨"b.py", "main", ["helper"], []⟩)]
      ∧ "helper" ∈ (⟨"b.py", "main", ["helper"], []⟩ : GraphNode).calls := by
  constructor <;> decide

/-- Graph persisted by the previous run in the C4 scenario. -/
def c4PrevGraph : Graph := [("a.py::f", ⟨"a.py", "f", ["g"], []⟩)]

/-- C4 counterexample: a fresh builder instance (empty in-memory graph) that
loaded the persisted hash map sees a.py unchanged and skips it, and the graph
it persists is empty: the entry a.py::f that the previous run persisted
(c4PrevGraph) is gone, although the file did not change. -/
theorem build_graph_drops_unchanged_entries :
    dictGet c4PrevGraph "a.py::f" = some ⟨"a.py", "f", ["g"], []⟩
      ∧ (buildGraph true ⟨[], [("a.py", "h1")]⟩
          [⟨"a.py", "h1", [⟨"f", ["g"]⟩]⟩]).changed = []
      ∧ dictGet (buildGraph true ⟨[], [("a.py", "h1")]⟩
          [⟨"a.py", "h1", [⟨"f", ["g"]⟩]⟩]).graph "a.py::f" = none := by
  refine ⟨by decide, by decide, by decide⟩

lemma dictSet_mem {α : Type} {d : List (String × α)} {k : String} {v : α}
    {e : String × α} (h : e ∈ dictSet d k v) : e ∈ d ∨ e = (k, v) := by
  induction d with
  | nil => simpa [dictSet] using h
  | cons e' rest ih =>
    unfold dictSet at h
    by_cases he : e'.1 = k
    · rw [if_pos he] at h
      rcases List.mem_cons.mp h with h | h
      · exact Or.inr h
      · exact Or.inl (List.mem_cons_of_mem e' h)
    · rw [if_neg he] at h
      rcases List.mem_cons.mp h with h | h
      · exact Or.inl (h ▸ List.mem_cons_self e' rest)
      · rcases ih h with h | h
        · exact Or.inl (List.mem_cons_of_mem e' h)
        · exact Or.inr h

lemma processFile_file_origin {g : Graph} {f : PyFile} {kn : String × GraphNode}
    (h : kn ∈ processFile g f) : kn ∈ g ∨ kn.2.file = f.rel_path := by
  unfold processFile at h
  revert h
  generalize collectCalls f.defs = entries
  induction entries generalizing g with
  | nil => intro h; exact Or.inl h
  | cons fc rest ih =>
    intro h
    simp only [List.foldl_cons] at h
    rcases ih h with h | h
    · rcases dictSet_mem h with h | h
      · exact Or.inl h
      · exact Or.inr (by rw [h])
    · exact Or.inr h

lemma appendCaller_file_pred (P : String → Prop) {g : Graph} (caller called : String)
    (h : ∀ kn ∈ g, P kn.2.file) :
    ∀ kn ∈ appendCaller caller called g, P kn.2.file := by
  intro kn hkn
  obtain ⟨kn', hkn', he⟩ := List.mem_map.mp hkn
  by_cases hc : kn'.2.name = called
  · rw [if_pos hc] at he
    rw [← he]
    exact h kn' hkn'
  · rw [if_neg hc] at he
    rw [← he]
    exact h kn' hkn'

lemma reverseStep_file_pred (P : String → Prop) {g : Graph} (key : String)
    (h : ∀ kn ∈ g, P kn.2.file) :
    ∀ kn ∈ reverseStep g key, P kn.2.file := by
  have hgen : ∀ (nm : String) (cs : List String) (g' : Graph),
      (∀ kn ∈ g', P kn.2.file) →
      ∀ kn ∈ cs.foldl (fun g2 called => appendCaller nm called g2) g', P kn.2.file := by
    intro nm cs
    induction cs with
    | nil => intro g' h' kn hkn; exact h' kn hkn
    | cons c rest ih =>
      intro g' h'
      simp only [List.foldl_cons]
      exact ih _ (appendCaller_file_pred P nm c h')
  unfold reverseStep
  cases dictGet g key with
  | none => exact h
  | some meta => exact hgen meta.name meta.calls g h

lemma reversePass_file_pred (P : String → Prop) {g : Graph}
    (h : ∀ kn ∈ g, P kn.2.file) :
    ∀ kn ∈ reversePass g, P kn.2.file := by
  have hgen : ∀ (keys : List String) (g' : Graph), (∀ kn ∈ g', P kn.2.file) →
      ∀ kn ∈ keys.foldl reverseStep g', P kn.2.file := by
    intro keys
    induction keys with
    | nil => intro g' h' kn hkn; exact h' kn hkn
    | cons key rest ih =>
      intro g' h'
      simp only [List.foldl_cons]
      exact ih _ (reverseStep_file_pred P key h')
  exact hgen (g.map Prod.fst) g h

lemma buildFold_get_of_not_mem (hfe : Bool) (p : String) :
    ∀ (files : List PyFile) (acc : Graph × List (String × String) × List String),
      p ∉ files.map PyFile.rel_path →
      dictGet (files.foldl (buildStep hfe) acc).2.1 p = dictGet acc.2.1 p
        ∧ ((files.foldl (buildStep hfe) acc).2.2 = acc.2.2
            ∨ ∀ q ∈ (files.foldl (buildStep hfe) acc).2.2, q ∈ acc.2.2 ∨ q ≠ p) := by
  intro files
  induction files with
  | nil => intro acc _; exact ⟨rfl, Or.inl rfl⟩
  | cons f rest ih =>
    intro acc hp
    simp only [List.map_cons, List.mem_cons, not_or] at hp
    obtain ⟨hne, hrest⟩ := hp
    simp only [List.foldl_cons]
    have hstep : dictGet (buildStep hfe acc f).2.1 p = dictGet acc.2.1 p
        ∧ ∀ q ∈ (buildStep hfe acc f).2.2, q ∈ acc.2.2 ∨ q ≠ p := by
      unfold buildStep
      split_ifs with hc
      · constructor
        · exact dictGet_dictSet_ne _ (fun hk => hne hk.symm) _
        · intro q hq
          rcases List.mem_append.mp hq with hq | hq
          · exact Or.inl hq
          · rcases List.mem_singleton.mp hq with rfl
            exact Or.inr (fun hk => hne hk.symm)
      · exact ⟨rfl, fun q hq => Or.inl hq⟩
    obtain ⟨ih1, ih2⟩ := ih (buildStep hfe acc f) (by simpa using hrest)
    refine ⟨by rw [ih1, hstep.1], Or.inr ?_⟩
    intro q hq
    rcases ih2 with he | hpred
    · rw [he] at hq
      exact hstep.2 q hq
    · rcases hpred q hq with hq' | hq'
      · exact hstep.2 q hq'
      · exact Or.inr hq'

lemma buildFold_skip_unchanged (hfe : Bool) :
    ∀ (files : List PyFile) (acc : Graph × List (String × String) × List String)
      (f : PyFile), f ∈ files → (files.map PyFile.rel_path).Nodup → hfe = true →
      dictGet acc.2.1 f.rel_path = some f.content_hash →
      f.rel_path ∉ acc.2.2 →
      dictGet (files.foldl (buildStep hfe) acc).2.1 f.rel_path = some f.content_hash
        ∧ f.rel_path ∉ (files.foldl (buildStep hfe) acc).2.2 := by
  intro files
  induction files with
  | nil => intro acc f hf; cases hf
  | cons g rest ih =>
    intro acc f hf hnd hhfe hget hnm
    simp only [List.map_cons, List.nodup_cons] at hnd
    obtain ⟨hhead, htail⟩ := hnd
    simp only [List.foldl_cons]
    rcases List.mem_cons.mp hf with hfg | hfg
    · subst hfg
      have hskip : buildStep hfe acc f = acc := by
        unfold buildStep
        rw [if_neg]
        unfold fileChanged
        rw [if_neg (by simp [hhfe]), hget]
        simp
      rw [hskip]
      have hnot : f.rel_path ∉ rest.map PyFile.rel_path := hhead
      obtain ⟨h1, h2⟩ := buildFold_get_of_not_mem hfe f.rel_path rest acc hnot
      refine ⟨by rw [h1, hget], ?_⟩
      rcases h2 with he | hpred
      · rw [he]
        exact hnm
      · intro hin
        rcases hpred _ hin with h | h
        · exact hnm h
        · exact h rfl
    · have hgne : g.rel_path ≠ f.rel_path := by
        intro he
        exact hhead (he ▸ List.mem_map_of_mem PyFile.rel_path hfg)
      have hget' : dictGet (buildStep hfe acc g).2.1 f.rel_path = some f.content_hash := by
        unfold buildStep
        split_ifs with hc
        · show dictGet (dictSet acc.2.1 g.rel_path g.content_hash) f.rel_path = _
          rw [dictGet_dictSet_ne _ hgne]
          exact hget
        · exact hget
      have hnm' : f.rel_path ∉ (buildStep hfe acc g).2.2 := by
        unfold buildStep
        split_ifs with hc
        · show f.rel_path ∉ acc.2.2 ++ [g.rel_path]
          intro hin
          rcases List.mem_append.mp hin with h | h
          · exact hnm h
          · exact hgne (List.mem_singleton.mp h).symm
        · exact hnm
      exact ih (buildStep hfe acc g) f hfg htail hhfe hget' hnm'

lemma buildFold_graph_from_changed (hfe : Bool) :
    ∀ (files : List PyFile) (acc : Graph × List (String × String) × List String),
      (∀ kn ∈ acc.1, kn.2.file ∈ acc.2.2) →
      ∀ kn ∈ (files.foldl (buildStep hfe) acc).1,
        kn.2.file ∈ (files.foldl (buildStep hfe) acc).2.2 := by
  intro files
  induction files with
  | nil => intro acc h; exact h
  | cons f rest ih =>
    intro acc h
    simp only [List.foldl_cons]
    apply ih
    unfold buildStep
    split_ifs with hc
    · intro kn hkn
      show kn.2.file ∈ acc.2.2 ++ [f.rel_path]
      rcases processFile_file_origin hkn with hkn | hkn
      · exact List.mem_append_left _ (h kn hkn)
      · rw [hkn]
        exact List.mem_append_right _ (List.mem_singleton.mpr rfl)
    · exact h

/-- C4 amended: on the first build_graph run of a fresh builder instance (empty
in-memory graph, hash file present), every file whose fingerprint matches the
loaded hash map is skipped: it is not reported changed and its hash entry is
kept. However the previous graph entries of skipped files are not preserved:
every node of the persisted graph stems from a file of the changed set of this
run,
so the persisted graph holds no entry at all for a skipped file. -/
theorem build_graph_fresh_skip (hashes : List (String × String))
    (files : List PyFile) (hnd : (files.map PyFile.rel_path).Nodup) :
    (∀ f ∈ files, dictGet hashes f.rel_path = some f.content_hash →
        f.rel_path ∉ (buildGraph true ⟨[], hashes⟩ files).changed
          ∧ dictGet (buildGraph true ⟨[], hashes⟩ files).file_hashes f.rel_path
            = some f.content_hash)
      ∧ ∀ kn ∈ (buildGraph true ⟨[], hashes⟩ files).graph,
          kn.2.file ∈ (buildGraph true ⟨[], hashes⟩ files).changed := by
  constructor
  · intro f hf hget
    unfold buildGraph
    have hne : files ≠ [] := by
      intro he
      rw [he] at hf
      cases hf
    rw [if_neg hne]
    obtain ⟨h1, h2⟩ := buildFold_skip_unchanged true files ([], hashes, []) f hf hnd
      rfl hget (by simp)
    exact ⟨h2, h1⟩
  · intro kn hkn
    unfold buildGraph at hkn ⊢
    by_cases hne : files = []
    · rw [if_pos hne] at hkn
      cases hkn
    · rw [if_neg hne] at hkn ⊢
      have hfold := buildFold_graph_from_changed true files ([], hashes, [])
        (by intro kn hkn; cases hkn)
      exact reversePass_file_pred
        (fun s => s ∈ (files.foldl (buildStep true) ([], hashes, [])).2.2)
        hfold kn hkn

/-- Witness for the amended C4: the concrete unchanged a.py is skipped (not in
the changed set, hash kept) and the persisted graph has no node for it. -/
theorem build_graph_fresh_skip_witness :
    (([⟨"a.py", "h1", [⟨"f", ["g"]⟩]⟩] : List PyFile).map PyFile.rel_path).Nodup
      ∧ dictGet [("a.py", "h1")] "a.py" = some "h1"
      ∧ ("a.py" ∉ (buildGraph true ⟨[], [("a.py", "h1")]⟩
            [⟨"a.py", "h1", [⟨"f", ["g"]⟩]⟩]).changed
          ∧ dictGet (buildGraph true ⟨[], [("a.py", "h1")]⟩
              [⟨"a.py", "h1", [⟨"f", ["g"]⟩]⟩]).file_hashes "a.py" = some "h1") :=
  ⟨by decide, by decide,
   (build_graph_fresh_skip [("a.py", "h1")] [⟨"a.py", "h1", [⟨"f", ["g"]⟩]⟩]
      (by decide)).1 ⟨"a.py", "h1", [⟨"f", ["g"]⟩]⟩ (by decide) (by decide)⟩

/-- Python range(0, stop, step): the multiples of step below stop in order. -/
def pyRange (stop step : Nat) : List Nat :=
  (List.range ((stop + step - 1) / step)).map (· * step)

/-- One sliding window chunk of _process_large_file (preprocessor.py lines
173-182): lines start..end (0-based, end exclusive), named rel:start+1-end,
code the newline join of those lines. -/
def mkWindow (lines : List String) (rel : String) (s e : Nat) : Chunk :=
  ⟨rel, rel ++ ":" ++ toString (s + 1) ++ "-" ++ toString e, s + 1, e,
    joinNL ((lines.drop s).take (e - s))⟩

/-- The window loop of _process_large_file (preprocessor.py lines 166-182):
iterate the precomputed starts; end is min(start+1000, total); a window of
fewer than 100 lines breaks out of the loop when the chunk list (including the
whole-file chunk) is nonempty, otherwise the window is appended. -/
def windowLoop (lines : List String) (rel : String) :
    List Nat → List Chunk → List Chunk
  | [], acc => acc
  | s :: rest, acc =>
    let e := min (s + 1000) lines.length
    if e - s < 100 ∧ acc.length > 0 then acc
    else windowLoop lines rel rest (acc ++ [mkWindow lines rel s e])

/-- _process_large_file (preprocessor.py lines 142-184): a whole-file chunk
named rel:full is added first when the file has at most 5000 lines, then the
window loop runs over starts 0, 900, 1800, ... (window size 1000, overlap
100). The source string is modelled by the newline join of its lines. -/
def processLargeFile (lines : List String) (rel : String) : List Chunk :=
  let total := lines.length
  let base : List Chunk :=
    if total ≤ 5000 then [⟨rel, rel ++ ":full", 1, total, joinNL lines⟩] else []
  windowLoop lines rel (pyRange total 900) base

/-- The very-large dispatch of extract_chunks (preprocessor.py lines 206-224):
files above the 10 MB threshold go through _process_large_file; all other
files use their per-extension strategy, passed in as normal. -/
def extractChunks (file_size : Nat) (lines : List String) (rel : String)
    (normal : List Chunk) : List Chunk :=
  if 10 * 1024 * 1024 < file_size then processLargeFile lines rel else normal

/-- The window starts the code actually keeps, written from the spec sentence
as amended: windows start every 900 lines, and a trailing window shorter than
100 lines is always discarded (the whole-file chunk counts as an already
existing chunk, and for files over 5000 lines the first window always has
1000 lines, so the nonempty-chunk-list proviso of the break never matters). -/
def specWindowStarts (total : Nat) : List Nat :=
  (pyRange total 900).filter (fun s => decide (100 ≤ total - s))

lemma windowLoop_filter (lines : List String) (rel : String) :
    ∀ (starts : List Nat) (acc : List Chunk), acc ≠ [] →
      starts.Sorted (· ≤ ·) →
      windowLoop lines rel starts acc
        = acc ++ (starts.filter (fun s => decide (100 ≤ lines.length - s))).map
            (fun s => mkWindow lines rel s (min (s + 1000) lines.length)) := by
  intro starts
  induction starts with
  | nil => intro acc _ _; simp [windowLoop]
  | cons s rest ih =>
    intro acc hacc hsorted
    have hsr := List.sorted_cons.mp hsorted
    show (if min (s + 1000) lines.length - s < 100 ∧ acc.length > 0 then acc
        else windowLoop lines rel rest
          (acc ++ [mkWindow lines rel s (min (s + 1000) lines.length)])) = _
    by_cases hshort : min (s + 1000) lines.length - s < 100
    · rw [if_pos ⟨hshort, List.length_pos.mpr hacc⟩]
      have hsfail : ¬ (100 ≤ lines.length - s) := by omega
      have hrestfail : ∀ t ∈ rest, ¬ (100 ≤ lines.length - t) := by
        intro t ht
        have := hsr.1 t ht
        omega
      rw [List.filter_cons_of_neg (by simpa using hsfail),
        List.filter_eq_nil_iff.mpr (by intro t ht; simpa using hrestfail t ht)]
      simp
    · rw [if_neg (by intro hc; exact hshort hc.1)]
      rw [ih _ (by simp) hsr.2]
      have hkeep : 100 ≤ lines.length - s := by omega
      rw [List.filter_cons_of_pos (by simpa using hkeep)]
      simp

lemma pyRange_sorted (n step : Nat) : (pyRange n step).Sorted (· ≤ ·) := by
  unfold pyRange
  rw [List.Sorted, List.pairwise_map]
  exact (List.pairwise_lt_range _).imp
    (fun h => Nat.mul_le_mul_right step (Nat.le_of_lt h))

lemma mem_pyRange_900 {n s : Nat} :
    s ∈ pyRange n 900 ↔ s % 900 = 0 ∧ s < n := by
  unfold pyRange
  rw [List.mem_map]
  constructor
  · rintro ⟨i, hi, rfl⟩
    rw [List.mem_range] at hi
    omega
  · rintro ⟨hmod, hlt⟩
    refine ⟨s / 900, ?_, by omega⟩
    rw [List.mem_range]
    omega

/-- C6 amended: for every very-large file (size above the 10 MB threshold),
chunk extraction yields the whole-file chunk exactly when the file has at most
5000 lines, followed by windows of up to 1000 lines starting every 900 lines;
the kept window starts are exactly the multiples of 900 with at least 100
lines remaining, so a trailing window shorter than 100 lines is always
discarded: the whole-file chunk counts as an existing chunk for the break, and
when no chunk exists at all (over 5000 lines) the first window already has
1000 lines. -/
theorem large_file_chunking (size : Nat) (lines : List String) (rel : String)
    (normal : List Chunk) (hsize : 10 * 1024 * 1024 < size) :
    extractChunks size lines rel normal
      = (if lines.length ≤ 5000 then
            [⟨rel, rel ++ ":full", 1, lines.length, joinNL lines⟩] else [])
        ++ (specWindowStarts lines.length).map
            (fun s => mkWindow lines rel s (min (s + 1000) lines.length))
      ∧ ∀ s, s ∈ specWindowStarts lines.length
          ↔ (s % 900 = 0 ∧ 100 ≤ lines.length - s) := by
  constructor
  · unfold extractChunks
    rw [if_pos hsize]
    unfold processLargeFile specWindowStarts
    show windowLoop lines rel (pyRange lines.length 900)
        (if lines.length ≤ 5000 then
          [⟨rel, rel ++ ":full", 1, lines.length, joinNL lines⟩] else []) = _
    by_cases hle : lines.length ≤ 5000
    · simp only [if_pos hle]
      exact windowLoop_filter lines rel _ _ (by simp) (pyRange_sorted _ _)
    · simp only [if_neg hle]
      have hk : (lines.length + 900 - 1) / 900
          = ((lines.length + 900 - 1) / 900 - 1) + 1 := by omega
      have hzero : (0 : Nat) * 900 = 0 := by norm_num
      have hsorted := pyRange_sorted lines.length 900
      unfold pyRange at hsorted ⊢
      rw [hk, List.range_succ_eq_map, List.map_cons, hzero] at hsorted ⊢
      have htail := (List.sorted_cons.mp hsorted).2
      show (if min (0 + 1000) lines.length - 0 < 100 ∧ ([] : List Chunk).length > 0
          then ([] : List Chunk)
          else windowLoop lines rel _
            ([] ++ [mkWindow lines rel 0 (min (0 + 1000) lines.length)])) = _
      rw [if_neg (by simp)]
      rw [windowLoop_filter lines rel _ _ (by simp) htail]
      rw [List.filter_cons_of_pos (by simp; omega)]
      simp
  · intro s
    unfold specWindowStarts
    rw [List.mem_filter, mem_pyRange_900]
    constructor
    · rintro ⟨⟨h1, h2⟩, h3⟩
      simp only [decide_eq_true_eq] at h3
      exact ⟨h1, h3⟩
    · rintro ⟨h1, h2⟩
      refine ⟨⟨h1, by omega⟩, by simpa using h2⟩

/-- C6 counterexample: a very-large file with 50 lines. No window exists yet
when the loop reaches the only (trailing, 50-line) window, but the window is
still discarded because the whole-file chunk counts for the break check: the
output is only the whole-file chunk, while the claim requires the 50-line
window to be kept when no window exists yet. -/
theorem large_file_short_trailing_window_discarded :
    extractChunks (10 * 1024 * 1024 + 1) (List.replicate 50 "x") "big.txt" []
      = [⟨"big.txt", "big.txt:full", 1, 50, joinNL (List.replicate 50 "x")⟩] := by
  decide

/-- Witness for the amended C6: a concrete 1100-line very-large file gets the
whole-file chunk plus exactly the windows at starts 0 and 900 (the second is
the 200-line trailing rest), and start 900 satisfies the characterization. -/
theorem large_file_chunking_witness :
    (10 * 1024 * 1024 : Nat) < 10 * 1024 * 1024 + 1
      ∧ extractChunks (10 * 1024 * 1024 + 1) (List.replicate 1100 "x") "f.py" []
        = (if (List.replicate 1100 "x").length ≤ 5000 then
              [⟨"f.py", "f.py" ++ ":full", 1, (List.replicate (1100 : Nat) "x").length,
                joinNL (List.replicate 1100 "x")⟩] else [])
          ++ (specWindowStarts (List.replicate (1100 : Nat) "x").length).map
              (fun s => mkWindow (List.replicate 1100 "x") "f.py" s
                (min (s + 1000) (List.replicate (1100 : Nat) "x").length)) :=
  ⟨by decide,
   (large_file_chunking (10 * 1024 * 1024 + 1) (List.replicate 1100 "x") "f.py" []
      (by decide)).1⟩

end CodingAgent
